import Mathlib

/-!
Verification of the streaming output relay in `http-shell` (`main.go`,
`handleCommandExecution` and the webhook handler in `main`).

The coordinator loop of `handleCommandExecution` is embedded shallowly:
its select loop becomes a step function over an explicit `LoopState`,
driven by a list of events (chunk arrivals and timer ticks); the message
sink's answers to append/stop calls are supplied as boolean parameters,
and every call the coordinator issues is recorded in a `SinkCall` log.
Byte strings are modelled as lists of characters.
-/

namespace HttpShell

/-- Byte strings: Go byte slices and strings, modelled as lists of characters. -/
abbrev Bytes := List Char

/-- One call issued to the message sink, with the sink's answer where the Go
code inspects it (`appendToStream` and `stopChatStream` return a boolean;
`postThreadReply` returns nothing). -/
inductive SinkCall where
  | append (text : Bytes) (ok : Bool)
  | stop (ok : Bool)
  | postReply (text : Bytes)
deriving Repr, DecidableEq

/-- Test for an append call. -/
def SinkCall.isAppend : SinkCall → Bool
  | SinkCall.append _ _ => true
  | _ => false

/-- Test for a stop call. -/
def SinkCall.isStop : SinkCall → Bool
  | SinkCall.stop _ => true
  | _ => false

/-- Test for a live-session call (append or stop), as opposed to a fallback
thread reply. -/
def SinkCall.isLive (c : SinkCall) : Bool := c.isAppend || c.isStop

/-- Test for a live-session call that the sink answered with failure. -/
def SinkCall.isFailedLive : SinkCall → Bool
  | SinkCall.append _ ok => !ok
  | SinkCall.stop ok => !ok
  | SinkCall.postReply _ => false

/-- Texts of the fallback thread replies in a call log. -/
def postReplyTexts (calls : List SinkCall) : List Bytes :=
  calls.filterMap fun c =>
    match c with
    | SinkCall.postReply t => some t
    | _ => none

/-- Texts of the successful append calls in a call log, in order. -/
def successfulAppendTexts (calls : List SinkCall) : List Bytes :=
  calls.filterMap fun c =>
    match c with
    | SinkCall.append t true => some t
    | _ => none

/-- Live-session calls (appends and stops) in a call log. -/
def liveCalls (calls : List SinkCall) : List SinkCall :=
  calls.filter fun c => c.isLive

/-- Holds when no live-session call follows a failed live-session call in the
log: after the first failure the remaining calls are fallback replies only. -/
def noLiveAfterFailedLive : List SinkCall → Bool
  | [] => true
  | c :: rest =>
    if c.isFailedLive then rest.all fun d => !d.isLive
    else noLiveAfterFailedLive rest

/-- Coordinator-local state of the select loop in `handleCommandExecution`:
`outputBuf`, `lastSentLen`, and the two streaming flags. -/
structure LoopState where
  buf : Bytes
  lastSentLen : Nat
  streamingEnabled : Bool
  streamingFailed : Bool
deriving Repr, DecidableEq

/-- Fence prelude written into `outputBuf` before any chunk arrives:
`outputBuf.WriteString("\x60\x60\x60\n")` in the Go source. -/
def fencePrelude : Bytes := "```\n".data

/-- Coordinator state on entry to the select loop: the buffer holds only the
fence prelude, nothing has been sent, and `streamingEnabled` records whether
`startChatStream` succeeded. -/
def initState (streamingEnabled : Bool) : LoopState :=
  { buf := fencePrelude, lastSentLen := 0,
    streamingEnabled := streamingEnabled, streamingFailed := false }

/-- Chunk-arrival case of the select loop: `outputBuf.Write(data)`. -/
def stepChunk (s : LoopState) (data : Bytes) : LoopState :=
  { s with buf := s.buf ++ data }

/-- Timer-tick case of the select loop: when there is unsent data, streaming
is enabled and has not failed, flush the unsent suffix; a failed append sets
`streamingFailed`, a successful one advances `lastSentLen` to the current
buffer length. `appendOk` is the sink's answer to the append, consulted only
when an append is actually issued. -/
def stepTick (s : LoopState) (appendOk : Bool) : LoopState × List SinkCall :=
  if s.buf.length > s.lastSentLen ∧ s.streamingEnabled = true ∧ s.streamingFailed = false then
    let newOutput := s.buf.drop s.lastSentLen
    if newOutput.length > 0 then
      if appendOk then
        ({ s with lastSentLen := s.buf.length }, [SinkCall.append newOutput true])
      else
        ({ s with streamingFailed := true }, [SinkCall.append newOutput false])
    else (s, [])
  else (s, [])

/-- An event the select loop can wake up on before process completion: a chunk
dequeued from `outputCh`, or a ticker tick (carrying the sink's answer to the
append the tick may issue). -/
inductive Event where
  | chunk (data : Bytes)
  | tick (appendOk : Bool)
deriving Repr, DecidableEq

/-- Dispatch of one pre-completion event of the select loop. -/
def stepEvent (s : LoopState) (e : Event) : LoopState × List SinkCall :=
  match e with
  | Event.chunk data => (stepChunk s data, [])
  | Event.tick ok => stepTick s ok

/-- Run of the select loop over a sequence of pre-completion events, collecting
the sink calls issued. -/
def runLoop (s : LoopState) : List Event → LoopState × List SinkCall
  | [] => (s, [])
  | e :: es =>
    let p := stepEvent s e
    let q := runLoop p.1 es
    (q.1, p.2 ++ q.2)

/-- Chunk payloads carried by a list of events, in order. -/
def chunksOf (events : List Event) : List Bytes :=
  events.filterMap fun e =>
    match e with
    | Event.chunk data => some data
    | Event.tick _ => none

/-- Final-flush block of the completion branch: if the buffer holds unsent
data, append the remaining suffix; a failure sets `streamingFailed`, a success
does not advance `lastSentLen` (the Go code never touches it here). -/
def finalFlushStep (s : LoopState) (okRemaining : Bool) : LoopState × List SinkCall :=
  if s.buf.length > s.lastSentLen then
    let remainingOutput := s.buf.drop s.lastSentLen
    if remainingOutput.length > 0 then
      if okRemaining then (s, [SinkCall.append remainingOutput true])
      else ({ s with streamingFailed := true }, [SinkCall.append remainingOutput false])
    else (s, [])
  else (s, [])

/-- Debug-info append and stop block of the completion branch: skipped
entirely when `streamingFailed` is already set; a failed append of the debug
info or a failed stop call sets `streamingFailed`. -/
def debugStopStep (s : LoopState) (debugInfo : Bytes) (okDebug okStop : Bool) :
    LoopState × List SinkCall :=
  if s.streamingFailed = false then
    if okDebug then
      if okStop then (s, [SinkCall.append debugInfo true, SinkCall.stop true])
      else ({ s with streamingFailed := true },
            [SinkCall.append debugInfo true, SinkCall.stop false])
    else ({ s with streamingFailed := true }, [SinkCall.append debugInfo false])
  else (s, [])

/-- Outcome of the completion branch, and of a whole execution: the final
coordinator state, the log of sink calls issued, and `finalOutput`
(buffer contents followed by the completion report). -/
structure ExecResult where
  state : LoopState
  calls : List SinkCall
  finalOutput : Bytes
deriving Repr, DecidableEq

/-- Completion branch of the select loop (`case err := <-commandDone`):
after both reader goroutines are done, the chunks still in `outputCh`
(`pending`) are drained into the buffer; then `finalOutput` is formed from the
buffer and the completion report; then either a fallback reply is posted
(streaming off or already failed), or the remaining suffix and the report are
appended and the stream stopped, with a fallback reply if any of those calls
failed. -/
def finalize (s : LoopState) (pending : List Bytes) (debugInfo : Bytes)
    (okRemaining okDebug okStop : Bool) : ExecResult :=
  let sd : LoopState := { s with buf := s.buf ++ pending.flatten }
  let finalOutput := sd.buf ++ debugInfo
  if sd.streamingEnabled = false ∨ sd.streamingFailed = true then
    ⟨sd, [SinkCall.postReply finalOutput], finalOutput⟩
  else
    let p1 := finalFlushStep sd okRemaining
    let p2 := debugStopStep p1.1 debugInfo okDebug okStop
    let fallback :=
      if p2.1.streamingFailed = true then [SinkCall.postReply finalOutput] else []
    ⟨p2.1, p1.2 ++ p2.2 ++ fallback, finalOutput⟩

/-- Whole execution of `handleCommandExecution` from after the command was
started: the select loop over the given pre-completion events, then the
completion branch with the chunks still queued at that point. -/
def runExecution (streamingEnabled : Bool) (events : List Event) (pending : List Bytes)
    (debugInfo : Bytes) (okRemaining okDebug okStop : Bool) : ExecResult :=
  let p := runLoop (initState streamingEnabled) events
  let r := finalize p.1 pending debugInfo okRemaining okDebug okStop
  ⟨r.state, p.2 ++ r.calls, r.finalOutput⟩

/-- Holds when the execution ended with the live session completed: streaming
was enabled and never failed (so every append succeeded and the stop call
succeeded). -/
def liveCompleted (r : ExecResult) : Bool :=
  r.state.streamingEnabled && !r.state.streamingFailed

/-- Completion report the Go code formats as
`fmt.Sprintf` of the process-completed template with the exit code and the
elapsed duration. -/
def debugInfoText (exitCode : Int) (durationText : Bytes) : Bytes :=
  reportHead ++ (toString exitCode).data ++ reportMid ++ durationText ++ newlineText
where
  /-- Literal part of the report up to the exit code. -/
  reportHead : Bytes := "```\n\n**Process completed**\n- Exit code: ".data
  /-- Literal part of the report between exit code and duration. -/
  reportMid : Bytes := "\n- Execution time: ".data
  /-- Trailing newline of the report. -/
  newlineText : Bytes := "\n".data

/-- Error message built on `cmd.Start()` failure:
`fmt.Sprintf("Error starting command: %v\n", err)`. -/
def startErrorMsg (errText : Bytes) : Bytes :=
  startErrorHead ++ errText ++ "\n".data
where
  /-- Literal head of the start-failure message. -/
  startErrorHead : Bytes := "Error starting command: ".data

/-- Spawn-failure path of `handleCommandExecution`: when `cmd.Start()` fails,
the error message is appended to the live session and the session stopped
(results of both calls ignored) when streaming is enabled, otherwise posted as
a thread reply; then the function returns. -/
def handleStartFailure (streamingEnabled : Bool) (errText : Bytes)
    (okAppend okStop : Bool) : List SinkCall :=
  if streamingEnabled = true then
    [SinkCall.append (startErrorMsg errText) okAppend, SinkCall.stop okStop]
  else
    [SinkCall.postReply (startErrorMsg errText)]

/-- Pipe-creation failure path of `handleCommandExecution`: when
`cmd.StdoutPipe()` or `cmd.StderrPipe()` fails, a stop call is issued when
streaming is enabled (nothing at all otherwise) and the function returns. -/
def handlePipeFailure (streamingEnabled : Bool) (okStop : Bool) : List SinkCall :=
  if streamingEnabled = true then [SinkCall.stop okStop] else []

/-- Result of `cmd.Wait()` as the coordinator inspects it: no error, an
`exec.ExitError` carrying the code `ExitCode()` reports, or some other error. -/
inductive WaitError where
  | none
  | exitError (exitCode : Int)
  | otherError
deriving Repr, DecidableEq

/-- Exit-code extraction in the completion branch: start from 0 and overwrite
only when the wait error type-asserts to an `exec.ExitError`. -/
def extractExitCode : WaitError → Int
  | WaitError.none => 0
  | WaitError.exitError c => c
  | WaitError.otherError => 0

/-- Termination status of the child process as the operating system reports
it: a normal exit with a code, or death by a signal. -/
inductive Termination where
  | exited (code : Int)
  | signaled (sig : Nat)
deriving Repr, DecidableEq

/-- Behaviour of `cmd.Wait()` in the Go standard library, which the coordinator
relies on: an exit with code 0 yields no error; a nonzero exit yields an
`exec.ExitError` whose `ExitCode()` is that code; a signal-killed process
yields an `exec.ExitError` whose `ExitCode()` is -1. -/
def waitResult : Termination → WaitError
  | Termination.exited 0 => WaitError.none
  | Termination.exited c => WaitError.exitError c
  | Termination.signaled _ => WaitError.exitError (-1)

/-- Whitespace predicate of Go `unicode.IsSpace`, used by `strings.TrimSpace`:
ASCII whitespace, next line, no-break space, and the Unicode space separators. -/
def goIsSpace (c : Char) : Bool :=
  c.val = 0x20 || (0x09 ≤ c.val && c.val ≤ 0x0d) || c.val = 0x85 || c.val = 0xa0 ||
  c.val = 0x1680 || (0x2000 ≤ c.val && c.val ≤ 0x200a) ||
  c.val = 0x2028 || c.val = 0x2029 || c.val = 0x202f || c.val = 0x205f || c.val = 0x3000

/-- Go `strings.TrimSpace`: drop leading and trailing whitespace. -/
def trimSpace (s : Bytes) : Bytes :=
  ((s.dropWhile goIsSpace).reverse.dropWhile goIsSpace).reverse

/-- Go `strings.TrimPrefix(text, dollar)`: when the text starts with a dollar
sign drop that one character, otherwise return the text unchanged. -/
def trimOneDollar (s : Bytes) : Bytes :=
  if s.head? = some '$' then s.drop 1 else s

/-- Command derivation in the webhook handler of `main`:
`strings.TrimPrefix(text, dollar)` followed by `strings.TrimSpace`. -/
def parseCommand (text : Bytes) : Bytes :=
  trimSpace (trimOneDollar text)

/-- Modelled from the spec: the claimed description of command derivation —
the input with exactly one leading dollar marker removed if present, then
leading and trailing whitespace trimmed. -/
def specCommandOf (text : Bytes) : Bytes :=
  trimSpace
    (match text with
     | '$' :: rest => rest
     | s => s)

/-- Sample `text` input with a doubled marker. -/
def dollarDollarCmd : Bytes := "$$ cmd".data

/-- Expected command for the doubled-marker input. -/
def dollarCmd : Bytes := "$ cmd".data

/-- Marker text of an exit-status report in user-visible messages. -/
def exitCodeMarker : Bytes := "Exit code".data

/-- Sample error text of a spawn failure. -/
def sampleSpawnError : Bytes := "fork/exec /bin/sh: permission denied".data

/-- Sample duration text for the completion report. -/
def oneSecond : Bytes := "1s".data

/-- Infix search helper: `hasPrefixSeq needle hay` holds when `needle` is a
prefix of `hay`. -/
def hasPrefixSeq : Bytes → Bytes → Bool
  | [], _ => true
  | _ :: _, [] => false
  | a :: as, b :: bs => a = b && hasPrefixSeq as bs

/-- Infix search: `hasInfixSeq needle hay` holds when `needle` occurs
contiguously inside `hay`. -/
def hasInfixSeq (needle : Bytes) : Bytes → Bool
  | [] => hasPrefixSeq needle []
  | b :: bs => hasPrefixSeq needle (b :: bs) || hasInfixSeq needle bs

/-! Characterizations of the coordinator's step functions. -/

/-- Basic well-formedness of the coordinator state: the sent offset never
exceeds the buffer length. -/
def LoopInv (s : LoopState) : Prop := s.lastSentLen ≤ s.buf.length

theorem stepTick_char (s : LoopState) (ok : Bool) :
    stepTick s ok = (s, []) ∨
    (s.streamingEnabled = true ∧ s.streamingFailed = false ∧
      s.lastSentLen < s.buf.length ∧
      ((ok = true ∧ stepTick s ok =
          ({ s with lastSentLen := s.buf.length },
           [SinkCall.append (s.buf.drop s.lastSentLen) true])) ∨
       (ok = false ∧ stepTick s ok =
          ({ s with streamingFailed := true },
           [SinkCall.append (s.buf.drop s.lastSentLen) false])))) := by
  unfold stepTick
  by_cases hg : s.buf.length > s.lastSentLen ∧ s.streamingEnabled = true ∧
      s.streamingFailed = false
  · rw [if_pos hg]
    have hlen : (s.buf.drop s.lastSentLen).length > 0 := by
      rw [List.length_drop]
      omega
    rw [if_pos hlen]
    cases ok with
    | true => exact Or.inr ⟨hg.2.1, hg.2.2, hg.1, Or.inl ⟨rfl, rfl⟩⟩
    | false => exact Or.inr ⟨hg.2.1, hg.2.2, hg.1, Or.inr ⟨rfl, rfl⟩⟩
  · rw [if_neg hg]
    exact Or.inl rfl

theorem stepEvent_chunk (s : LoopState) (data : Bytes) :
    stepEvent s (Event.chunk data) = ({ s with buf := s.buf ++ data }, []) := rfl

theorem runLoop_cons_fst (s : LoopState) (e : Event) (es : List Event) :
    (runLoop s (e :: es)).1 = (runLoop (stepEvent s e).1 es).1 := rfl

theorem runLoop_cons_snd (s : LoopState) (e : Event) (es : List Event) :
    (runLoop s (e :: es)).2 = (stepEvent s e).2 ++ (runLoop (stepEvent s e).1 es).2 := rfl

theorem stepEvent_enabled (s : LoopState) (e : Event) :
    (stepEvent s e).1.streamingEnabled = s.streamingEnabled := by
  cases e with
  | chunk data => rfl
  | tick ok =>
    rcases stepTick_char s ok with h | ⟨_, _, _, ⟨_, h⟩ | ⟨_, h⟩⟩ <;>
      simp [stepEvent, h]

theorem stepEvent_buf (s : LoopState) (e : Event) :
    (stepEvent s e).1.buf = s.buf ++ (chunksOf [e]).flatten := by
  cases e with
  | chunk data => simp [stepEvent, stepChunk, chunksOf]
  | tick ok =>
    rcases stepTick_char s ok with h | ⟨_, _, _, ⟨_, h⟩ | ⟨_, h⟩⟩ <;>
      simp [stepEvent, h, chunksOf]

theorem stepEvent_inv (s : LoopState) (e : Event) (h : LoopInv s) :
    LoopInv (stepEvent s e).1 := by
  cases e with
  | chunk data =>
    simp only [LoopInv, stepEvent, stepChunk, List.length_append] at *
    omega
  | tick ok =>
    rcases stepTick_char s ok with hc | ⟨_, _, _, ⟨_, hc⟩ | ⟨_, hc⟩⟩ <;>
      simp_all [LoopInv, stepEvent]

theorem stepEvent_lastSent_mono (s : LoopState) (e : Event) (h : LoopInv s) :
    s.lastSentLen ≤ (stepEvent s e).1.lastSentLen := by
  cases e with
  | chunk data => simp [stepEvent, stepChunk]
  | tick ok =>
    rcases stepTick_char s ok with hc | ⟨_, _, hlt, ⟨_, hc⟩ | ⟨_, hc⟩⟩ <;>
      simp_all [LoopInv, stepEvent]

theorem stepEvent_failed_mono (s : LoopState) (e : Event) (h : s.streamingFailed = true) :
    (stepEvent s e).1.streamingFailed = true ∧ (stepEvent s e).2 = [] := by
  cases e with
  | chunk data => exact ⟨h, rfl⟩
  | tick ok =>
    rcases stepTick_char s ok with hc | ⟨_, hf, _, _⟩
    · simp [stepEvent, hc, h]
    · rw [h] at hf; cases hf

theorem stepEvent_failed_back (s : LoopState) (e : Event)
    (h : (stepEvent s e).1.streamingFailed = false) : s.streamingFailed = false := by
  cases e with
  | chunk data => exact h
  | tick ok =>
    rcases stepTick_char s ok with hc | ⟨_, hf, _, _⟩
    · simpa [stepEvent, hc] using h
    · exact hf

theorem stepEvent_sent (s : LoopState) (e : Event) (h : LoopInv s) :
    (stepEvent s e).1.buf.take (stepEvent s e).1.lastSentLen
      = s.buf.take s.lastSentLen
          ++ (successfulAppendTexts (stepEvent s e).2).flatten := by
  cases e with
  | chunk data =>
    simp [stepEvent, stepChunk, successfulAppendTexts,
      List.take_append_of_le_length h]
  | tick ok =>
    rcases stepTick_char s ok with hc | ⟨_, _, hlt, ⟨_, hc⟩ | ⟨_, hc⟩⟩ <;>
      simp_all [stepEvent, successfulAppendTexts]

theorem stepEvent_calls_char (s : LoopState) (e : Event) :
    (stepEvent s e).2 = [] ∨
    (∃ t, (stepEvent s e).2 = [SinkCall.append t true] ∧
      (stepEvent s e).1.streamingFailed = s.streamingFailed) ∨
    (∃ t, (stepEvent s e).2 = [SinkCall.append t false] ∧
      (stepEvent s e).1.streamingFailed = true) := by
  cases e with
  | chunk data => exact Or.inl rfl
  | tick ok =>
    rcases stepTick_char s ok with hc | ⟨_, _, _, ⟨_, hc⟩ | ⟨_, hc⟩⟩
    · simp [stepEvent, hc]
    · exact Or.inr (Or.inl ⟨s.buf.drop s.lastSentLen, by simp [stepEvent, hc]⟩)
    · exact Or.inr (Or.inr ⟨s.buf.drop s.lastSentLen, by simp [stepEvent, hc]⟩)

/-! Invariants of the select loop, by induction over the event sequence. -/

theorem runLoop_enabled (events : List Event) (s : LoopState) :
    (runLoop s events).1.streamingEnabled = s.streamingEnabled := by
  induction events generalizing s with
  | nil => rfl
  | cons e es ih => rw [runLoop_cons_fst, ih, stepEvent_enabled]

theorem runLoop_buf (events : List Event) (s : LoopState) :
    (runLoop s events).1.buf = s.buf ++ (chunksOf events).flatten := by
  induction events generalizing s with
  | nil => simp [runLoop, chunksOf]
  | cons e es ih =>
    rw [runLoop_cons_fst, ih, stepEvent_buf]
    cases e <;> simp [chunksOf]

theorem runLoop_inv (events : List Event) (s : LoopState) (h : LoopInv s) :
    LoopInv (runLoop s events).1 := by
  induction events generalizing s with
  | nil => exact h
  | cons e es ih => rw [runLoop_cons_fst]; exact ih _ (stepEvent_inv s e h)

theorem runLoop_lastSent_mono (events : List Event) (s : LoopState) (h : LoopInv s) :
    s.lastSentLen ≤ (runLoop s events).1.lastSentLen := by
  induction events generalizing s with
  | nil => exact Nat.le_refl _
  | cons e es ih =>
    rw [runLoop_cons_fst]
    exact Nat.le_trans (stepEvent_lastSent_mono s e h) (ih _ (stepEvent_inv s e h))

theorem runLoop_failed_mono (events : List Event) (s : LoopState)
    (h : s.streamingFailed = true) :
    (runLoop s events).1.streamingFailed = true ∧ (runLoop s events).2 = [] := by
  induction events generalizing s with
  | nil => exact ⟨h, rfl⟩
  | cons e es ih =>
    obtain ⟨h1, h2⟩ := stepEvent_failed_mono s e h
    obtain ⟨h3, h4⟩ := ih _ h1
    exact ⟨by rw [runLoop_cons_fst]; exact h3,
      by rw [runLoop_cons_snd, h2, h4]; rfl⟩

theorem runLoop_failed_back (events : List Event) (s : LoopState)
    (h : (runLoop s events).1.streamingFailed = false) : s.streamingFailed = false := by
  induction events generalizing s with
  | nil => exact h
  | cons e es ih =>
    rw [runLoop_cons_fst] at h
    exact stepEvent_failed_back s e (ih _ h)

theorem runLoop_sent (events : List Event) (s : LoopState) (h : LoopInv s) :
    (runLoop s events).1.buf.take (runLoop s events).1.lastSentLen
      = s.buf.take s.lastSentLen
          ++ (successfulAppendTexts (runLoop s events).2).flatten := by
  induction events generalizing s with
  | nil => simp [runLoop, successfulAppendTexts]
  | cons e es ih =>
    rw [runLoop_cons_fst, runLoop_cons_snd, ih _ (stepEvent_inv s e h),
      stepEvent_sent s e h]
    simp [successfulAppendTexts, List.filterMap_append, List.append_assoc]

theorem runLoop_append_only (events : List Event) (s : LoopState) :
    ∀ c ∈ (runLoop s events).2, c.isAppend = true := by
  induction events generalizing s with
  | nil => intro c hc; cases hc
  | cons e es ih =>
    intro c hc
    rw [runLoop_cons_snd] at hc
    rcases List.mem_append.mp hc with hc | hc
    · rcases stepEvent_calls_char s e with h | ⟨t, h, _⟩ | ⟨t, h, _⟩ <;>
        rw [h] at hc
      · cases hc
      · rcases List.mem_singleton.mp hc with rfl; rfl
      · rcases List.mem_singleton.mp hc with rfl; rfl
    · exact ih _ c hc

theorem runLoop_nofail_calls (events : List Event) (s : LoopState)
    (h : (runLoop s events).1.streamingFailed = false) :
    ∀ c ∈ (runLoop s events).2, c.isFailedLive = false := by
  induction events generalizing s with
  | nil => intro c hc; cases hc
  | cons e es ih =>
    intro c hc
    rw [runLoop_cons_snd] at hc
    rw [runLoop_cons_fst] at h
    rcases List.mem_append.mp hc with hc | hc
    · rcases stepEvent_calls_char s e with hh | ⟨t, hh, _⟩ | ⟨t, hh, hf⟩
      · rw [hh] at hc; cases hc
      · rw [hh] at hc; rcases List.mem_singleton.mp hc with rfl; rfl
      · exfalso
        have := runLoop_failed_back es _ h
        rw [this] at hf
        cases hf
    · exact ih _ h c hc

theorem runLoop_nlafl (events : List Event) (s : LoopState) :
    noLiveAfterFailedLive (runLoop s events).2 = true := by
  induction events generalizing s with
  | nil => rfl
  | cons e es ih =>
    rw [runLoop_cons_snd]
    rcases stepEvent_calls_char s e with h | ⟨t, h, _⟩ | ⟨t, h, hf⟩
    · rw [h, List.nil_append]; exact ih _
    · rw [h]
      simpa [noLiveAfterFailedLive, SinkCall.isFailedLive] using ih _
    · rw [h]
      have h2 := (runLoop_failed_mono es _ hf).2
      simp [noLiveAfterFailedLive, SinkCall.isFailedLive, h2]

/-! Helper facts about call logs. -/

theorem postReplyTexts_append (xs ys : List SinkCall) :
    postReplyTexts (xs ++ ys) = postReplyTexts xs ++ postReplyTexts ys := by
  simp [postReplyTexts, List.filterMap_append]

theorem successfulAppendTexts_append (xs ys : List SinkCall) :
    successfulAppendTexts (xs ++ ys)
      = successfulAppendTexts xs ++ successfulAppendTexts ys := by
  simp [successfulAppendTexts, List.filterMap_append]

theorem liveCalls_append (xs ys : List SinkCall) :
    liveCalls (xs ++ ys) = liveCalls xs ++ liveCalls ys := by
  simp [liveCalls, List.filter_append]

theorem postReplyTexts_of_appends (xs : List SinkCall)
    (h : ∀ c ∈ xs, c.isAppend = true) : postReplyTexts xs = [] := by
  induction xs with
  | nil => rfl
  | cons c cs ih =>
    have hc := h c (List.mem_cons_self c cs)
    cases c with
    | append t ok =>
      simp only [postReplyTexts, List.filterMap_cons] at *
      exact ih fun d hd => h d (List.mem_cons_of_mem _ hd)
    | stop ok => cases hc
    | postReply t => cases hc

theorem stops_of_appends (xs : List SinkCall)
    (h : ∀ c ∈ xs, c.isAppend = true) :
    (xs.filter fun c => c.isStop) = [] := by
  induction xs with
  | nil => rfl
  | cons c cs ih =>
    have hc := h c (List.mem_cons_self c cs)
    cases c with
    | append t ok =>
      simp only [List.filter_cons, SinkCall.isStop]
      exact ih fun d hd => h d (List.mem_cons_of_mem _ hd)
    | stop ok => cases hc
    | postReply t => cases hc

theorem isFailedLive_false_of_not_live (c : SinkCall) (h : c.isLive = false) :
    c.isFailedLive = false := by
  cases c <;> simp_all [SinkCall.isLive, SinkCall.isAppend, SinkCall.isStop,
    SinkCall.isFailedLive]

theorem nlafl_of_nonlive (xs : List SinkCall) (h : ∀ c ∈ xs, c.isLive = false) :
    noLiveAfterFailedLive xs = true := by
  induction xs with
  | nil => rfl
  | cons c cs ih =>
    have hc := isFailedLive_false_of_not_live c (h c (List.mem_cons_self c cs))
    simp only [noLiveAfterFailedLive, hc]
    simpa using ih fun d hd => h d (List.mem_cons_of_mem _ hd)

theorem nlafl_append_of_clean (xs ys : List SinkCall)
    (hx : ∀ c ∈ xs, c.isFailedLive = false)
    (hy : noLiveAfterFailedLive ys = true) :
    noLiveAfterFailedLive (xs ++ ys) = true := by
  induction xs with
  | nil => simpa
  | cons c cs ih =>
    have hc := hx c (List.mem_cons_self c cs)
    simp only [List.cons_append, noLiveAfterFailedLive, hc]
    simpa using ih fun d hd => hx d (List.mem_cons_of_mem _ hd)

theorem nlafl_append_of_nonlive (xs ys : List SinkCall)
    (hx : noLiveAfterFailedLive xs = true)
    (hy : ∀ c ∈ ys, c.isLive = false) :
    noLiveAfterFailedLive (xs ++ ys) = true := by
  induction xs with
  | nil => exact nlafl_of_nonlive ys hy
  | cons c cs ih =>
    simp only [List.cons_append, noLiveAfterFailedLive] at *
    by_cases hc : c.isFailedLive = true
    · simp only [hc, if_true] at hx ⊢
      rw [show cs.append ys = cs ++ ys from rfl, List.all_append]
      simp only [hx, Bool.true_and]
      simpa [List.all_eq_true] using fun d hd => hy d hd
    · have hc' : c.isFailedLive = false := by
        cases hcc : c.isFailedLive
        · rfl
        · exact absurd hcc hc
      simp only [hc', if_false, Bool.false_eq_true] at hx ⊢
      exact ih hx

/-! Characterizations of the completion branch. -/

theorem finalFlushStep_char (s : LoopState) (ok : Bool) :
    (s.buf.length ≤ s.lastSentLen ∧ finalFlushStep s ok = (s, [])) ∨
    (s.lastSentLen < s.buf.length ∧
      ((ok = true ∧ finalFlushStep s ok =
          (s, [SinkCall.append (s.buf.drop s.lastSentLen) true])) ∨
       (ok = false ∧ finalFlushStep s ok =
          ({ s with streamingFailed := true },
           [SinkCall.append (s.buf.drop s.lastSentLen) false])))) := by
  unfold finalFlushStep
  by_cases hg : s.buf.length > s.lastSentLen
  · rw [if_pos hg]
    have hlen : (s.buf.drop s.lastSentLen).length > 0 := by
      rw [List.length_drop]; omega
    rw [if_pos hlen]
    cases ok with
    | true => exact Or.inr ⟨hg, Or.inl ⟨rfl, rfl⟩⟩
    | false => exact Or.inr ⟨hg, Or.inr ⟨rfl, rfl⟩⟩
  · rw [if_neg hg]
    exact Or.inl ⟨by omega, rfl⟩

theorem debugStopStep_char (s : LoopState) (d : Bytes) (okD okS : Bool) :
    (s.streamingFailed = true ∧ debugStopStep s d okD okS = (s, [])) ∨
    (s.streamingFailed = false ∧
      ((okD = true ∧ okS = true ∧ debugStopStep s d okD okS =
          (s, [SinkCall.append d true, SinkCall.stop true])) ∨
       (okD = true ∧ okS = false ∧ debugStopStep s d okD okS =
          ({ s with streamingFailed := true },
           [SinkCall.append d true, SinkCall.stop false])) ∨
       (okD = false ∧ debugStopStep s d okD okS =
          ({ s with streamingFailed := true }, [SinkCall.append d false])))) := by
  unfold debugStopStep
  cases hf : s.streamingFailed with
  | true => rw [if_neg (by simp [hf])]; exact Or.inl ⟨rfl, rfl⟩
  | false =>
    rw [if_pos rfl]
    cases okD with
    | true =>
      cases okS with
      | true => exact Or.inr ⟨rfl, Or.inl ⟨rfl, rfl, by rw [if_pos rfl, if_pos rfl]⟩⟩
      | false =>
        exact Or.inr ⟨rfl, Or.inr (Or.inl ⟨rfl, rfl,
          by rw [if_pos rfl, if_neg (by simp)]⟩)⟩
    | false =>
      exact Or.inr ⟨rfl, Or.inr (Or.inr ⟨rfl, by rw [if_neg (by simp)]⟩)⟩

theorem finalize_degraded (s : LoopState) (pending : List Bytes) (d : Bytes)
    (o1 o2 o3 : Bool) (h : s.streamingEnabled = false ∨ s.streamingFailed = true) :
    finalize s pending d o1 o2 o3 =
      ⟨{ s with buf := s.buf ++ pending.flatten },
       [SinkCall.postReply ((s.buf ++ pending.flatten) ++ d)],
       (s.buf ++ pending.flatten) ++ d⟩ := by
  unfold finalize
  rw [if_pos h]

theorem finalize_not_degraded (s : LoopState) (pending : List Bytes) (d : Bytes)
    (o1 o2 o3 : Bool) (hE : s.streamingEnabled = true) (hF : s.streamingFailed = false) :
    finalize s pending d o1 o2 o3 =
      ⟨(debugStopStep (finalFlushStep { s with buf := s.buf ++ pending.flatten } o1).1
          d o2 o3).1,
       (finalFlushStep { s with buf := s.buf ++ pending.flatten } o1).2
         ++ (debugStopStep (finalFlushStep { s with buf := s.buf ++ pending.flatten } o1).1
              d o2 o3).2
         ++ (if (debugStopStep
                (finalFlushStep { s with buf := s.buf ++ pending.flatten } o1).1
                d o2 o3).1.streamingFailed = true
             then [SinkCall.postReply ((s.buf ++ pending.flatten) ++ d)] else []),
       (s.buf ++ pending.flatten) ++ d⟩ := by
  unfold finalize
  rw [if_neg (by simp [hE, hF])]

theorem finalFlushStep_preserve (s : LoopState) (ok : Bool) :
    (finalFlushStep s ok).1.buf = s.buf ∧
    (finalFlushStep s ok).1.lastSentLen = s.lastSentLen ∧
    (finalFlushStep s ok).1.streamingEnabled = s.streamingEnabled := by
  rcases finalFlushStep_char s ok with ⟨_, h⟩ | ⟨_, ⟨_, h⟩ | ⟨_, h⟩⟩ <;>
    rw [h] <;> exact ⟨rfl, rfl, rfl⟩

theorem debugStopStep_preserve (s : LoopState) (d : Bytes) (okD okS : Bool) :
    (debugStopStep s d okD okS).1.buf = s.buf ∧
    (debugStopStep s d okD okS).1.lastSentLen = s.lastSentLen ∧
    (debugStopStep s d okD okS).1.streamingEnabled = s.streamingEnabled := by
  rcases debugStopStep_char s d okD okS with ⟨_, h⟩ | ⟨_, ⟨_, _, h⟩ | ⟨_, _, h⟩ | ⟨_, h⟩⟩ <;>
    rw [h] <;> exact ⟨rfl, rfl, rfl⟩

theorem finalFlushStep_no_reply (s : LoopState) (ok : Bool) :
    postReplyTexts (finalFlushStep s ok).2 = [] := by
  rcases finalFlushStep_char s ok with ⟨_, h⟩ | ⟨_, ⟨_, h⟩ | ⟨_, h⟩⟩ <;> rw [h] <;> rfl

theorem debugStopStep_no_reply (s : LoopState) (d : Bytes) (okD okS : Bool) :
    postReplyTexts (debugStopStep s d okD okS).2 = [] := by
  rcases debugStopStep_char s d okD okS with ⟨_, h⟩ | ⟨_, ⟨_, _, h⟩ | ⟨_, _, h⟩ | ⟨_, h⟩⟩ <;>
    rw [h] <;> rfl

theorem finalize_basic (s : LoopState) (pending : List Bytes) (d : Bytes)
    (o1 o2 o3 : Bool) :
    (finalize s pending d o1 o2 o3).state.buf = s.buf ++ pending.flatten ∧
    (finalize s pending d o1 o2 o3).finalOutput = (s.buf ++ pending.flatten) ++ d ∧
    (finalize s pending d o1 o2 o3).state.lastSentLen = s.lastSentLen ∧
    (finalize s pending d o1 o2 o3).state.streamingEnabled = s.streamingEnabled := by
  by_cases hD : s.streamingEnabled = false ∨ s.streamingFailed = true
  · rw [finalize_degraded s pending d o1 o2 o3 hD]
    exact ⟨rfl, rfl, rfl, rfl⟩
  · simp only [not_or, Bool.not_eq_false, Bool.not_eq_true] at hD
    obtain ⟨hE, hF⟩ := hD
    rw [finalize_not_degraded s pending d o1 o2 o3 hE hF]
    obtain ⟨b1, l1, e1⟩ :=
      finalFlushStep_preserve { s with buf := s.buf ++ pending.flatten } o1
    obtain ⟨b2, l2, e2⟩ :=
      debugStopStep_preserve
        (finalFlushStep { s with buf := s.buf ++ pending.flatten } o1).1 d o2 o3
    exact ⟨by rw [show (ExecResult.mk _ _ _).state = _ from rfl, b2, b1], rfl,
      by rw [show (ExecResult.mk _ _ _).state = _ from rfl, l2, l1],
      by rw [show (ExecResult.mk _ _ _).state = _ from rfl, e2, e1]⟩

theorem finalize_failed_back (s : LoopState) (pending : List Bytes) (d : Bytes)
    (o1 o2 o3 : Bool)
    (h : (finalize s pending d o1 o2 o3).state.streamingFailed = false) :
    s.streamingFailed = false := by
  by_cases hD : s.streamingEnabled = false ∨ s.streamingFailed = true
  · rw [finalize_degraded s pending d o1 o2 o3 hD] at h
    exact h
  · simp only [not_or, Bool.not_eq_false, Bool.not_eq_true] at hD
    exact hD.2

theorem finalize_fallback_calls (s : LoopState) (pending : List Bytes) (d : Bytes)
    (o1 o2 o3 : Bool)
    (h : (finalize s pending d o1 o2 o3).state.streamingFailed = true ∨
         s.streamingEnabled = false) :
    postReplyTexts (finalize s pending d o1 o2 o3).calls
      = [(s.buf ++ pending.flatten) ++ d] := by
  by_cases hD : s.streamingEnabled = false ∨ s.streamingFailed = true
  · rw [finalize_degraded s pending d o1 o2 o3 hD]
    rfl
  · simp only [not_or, Bool.not_eq_false, Bool.not_eq_true] at hD
    obtain ⟨hE, hF⟩ := hD
    rw [finalize_not_degraded s pending d o1 o2 o3 hE hF] at h ⊢
    have hfail : (debugStopStep
        (finalFlushStep { s with buf := s.buf ++ pending.flatten } o1).1
        d o2 o3).1.streamingFailed = true := by
      rcases h with h | h
      · exact h
      · rw [hE] at h; cases h
    show postReplyTexts (_ ++ _ ++ _) = _
    rw [postReplyTexts_append, postReplyTexts_append, finalFlushStep_no_reply,
      debugStopStep_no_reply, if_pos hfail]
    rfl

theorem finalize_degraded_nonlive (s : LoopState) (pending : List Bytes) (d : Bytes)
    (o1 o2 o3 : Bool) (h : s.streamingEnabled = false ∨ s.streamingFailed = true) :
    ∀ c ∈ (finalize s pending d o1 o2 o3).calls, c.isLive = false := by
  rw [finalize_degraded s pending d o1 o2 o3 h]
  intro c hc
  rcases List.mem_singleton.mp hc with rfl
  rfl

theorem finalize_live (s : LoopState) (pending : List Bytes) (d : Bytes)
    (o1 o2 o3 : Bool) (hE : s.streamingEnabled = true) (hF : s.streamingFailed = false)
    (hOK : (finalize s pending d o1 o2 o3).state.streamingFailed = false) :
    postReplyTexts (finalize s pending d o1 o2 o3).calls = [] ∧
    (successfulAppendTexts (finalize s pending d o1 o2 o3).calls).flatten
      = (s.buf ++ pending.flatten).drop s.lastSentLen ++ d ∧
    ((finalize s pending d o1 o2 o3).calls.filter fun c => c.isStop)
      = [SinkCall.stop true] := by
  rw [finalize_not_degraded s pending d o1 o2 o3 hE hF] at hOK ⊢
  rcases finalFlushStep_char { s with buf := s.buf ++ pending.flatten } o1 with
    ⟨hle, h1⟩ | ⟨hlt, ⟨ho1, h1⟩ | ⟨ho1, h1⟩⟩
  · rw [h1] at hOK ⊢
    rcases debugStopStep_char { s with buf := s.buf ++ pending.flatten } d o2 o3 with
      ⟨hf2, h2⟩ | ⟨hf2, ⟨hD2, hS2, h2⟩ | ⟨hD2, hS2, h2⟩ | ⟨hD2, h2⟩⟩
    · rw [h2] at hOK; rw [hf2] at hF; cases hF
    · rw [h2] at hOK ⊢
      rw [show (ExecResult.mk _ _ _).calls = _ from rfl, if_neg (by simp [hF])]
      refine ⟨rfl, ?_, rfl⟩
      have hdrop : (s.buf ++ pending.flatten).drop s.lastSentLen = [] :=
        List.drop_eq_nil_of_le hle
      simp [successfulAppendTexts, hdrop]
    · rw [h2] at hOK; cases hOK
    · rw [h2] at hOK; cases hOK
  · rw [h1] at hOK ⊢
    rcases debugStopStep_char { s with buf := s.buf ++ pending.flatten } d o2 o3 with
      ⟨hf2, h2⟩ | ⟨hf2, ⟨hD2, hS2, h2⟩ | ⟨hD2, hS2, h2⟩ | ⟨hD2, h2⟩⟩
    · rw [h2] at hOK; rw [hf2] at hF; cases hF
    · rw [h2] at hOK ⊢
      rw [show (ExecResult.mk _ _ _).calls = _ from rfl, if_neg (by simp [hF])]
      refine ⟨rfl, ?_, rfl⟩
      simp [successfulAppendTexts]
    · rw [h2] at hOK; cases hOK
    · rw [h2] at hOK; cases hOK
  · rw [h1] at hOK ⊢
    rcases debugStopStep_char
        { { s with buf := s.buf ++ pending.flatten } with streamingFailed := true }
        d o2 o3 with
      ⟨hf2, h2⟩ | ⟨hf2, _⟩
    · rw [h2] at hOK; cases hOK
    · cases hf2

theorem finalize_nlafl (s : LoopState) (pending : List Bytes) (d : Bytes)
    (o1 o2 o3 : Bool) :
    noLiveAfterFailedLive (finalize s pending d o1 o2 o3).calls = true := by
  by_cases hD : s.streamingEnabled = false ∨ s.streamingFailed = true
  · rw [finalize_degraded s pending d o1 o2 o3 hD]
    rfl
  · simp only [not_or, Bool.not_eq_false, Bool.not_eq_true] at hD
    obtain ⟨hE, hF⟩ := hD
    rw [finalize_not_degraded s pending d o1 o2 o3 hE hF]
    rcases finalFlushStep_char { s with buf := s.buf ++ pending.flatten } o1 with
      ⟨hle, h1⟩ | ⟨hlt, ⟨ho1, h1⟩ | ⟨ho1, h1⟩⟩
    · rw [h1]
      rcases debugStopStep_char { s with buf := s.buf ++ pending.flatten } d o2 o3 with
        ⟨hf2, h2⟩ | ⟨hf2, ⟨hD2, hS2, h2⟩ | ⟨hD2, hS2, h2⟩ | ⟨hD2, h2⟩⟩ <;> rw [h2] <;>
        simp_all [noLiveAfterFailedLive, SinkCall.isFailedLive, SinkCall.isLive,
          SinkCall.isAppend, SinkCall.isStop]
    · rw [h1]
      rcases debugStopStep_char { s with buf := s.buf ++ pending.flatten } d o2 o3 with
        ⟨hf2, h2⟩ | ⟨hf2, ⟨hD2, hS2, h2⟩ | ⟨hD2, hS2, h2⟩ | ⟨hD2, h2⟩⟩ <;> rw [h2] <;>
        simp_all [noLiveAfterFailedLive, SinkCall.isFailedLive, SinkCall.isLive,
          SinkCall.isAppend, SinkCall.isStop]
    · rw [h1]
      rcases debugStopStep_char
          { { s with buf := s.buf ++ pending.flatten } with streamingFailed := true }
          d o2 o3 with
        ⟨hf2, h2⟩ | ⟨hf2, _⟩
      · rw [h2]
        simp [noLiveAfterFailedLive, SinkCall.isFailedLive, SinkCall.isLive,
          SinkCall.isAppend, SinkCall.isStop]
      · cases hf2

theorem runLoop_disabled (events : List Event) (s : LoopState)
    (h : s.streamingEnabled = false) : (runLoop s events).2 = [] := by
  induction events generalizing s with
  | nil => rfl
  | cons e es ih =>
    rw [runLoop_cons_snd]
    have h2 : (stepEvent s e).2 = [] := by
      cases e with
      | chunk data => rfl
      | tick ok =>
        rcases stepTick_char s ok with hc | ⟨hEn, _, _, _⟩
        · show (stepTick s ok).2 = []
          rw [hc]
        · rw [h] at hEn; cases hEn
    rw [h2, ih _ (by rw [stepEvent_enabled]; exact h)]
    rfl

theorem runLoop_append_fst (s : LoopState) (es fs : List Event) :
    (runLoop s (es ++ fs)).1 = (runLoop (runLoop s es).1 fs).1 := by
  induction es generalizing s with
  | nil => rfl
  | cons e es ih =>
    rw [List.cons_append, runLoop_cons_fst, runLoop_cons_fst, ih]

theorem runExecution_state (enabled : Bool) (events : List Event) (pending : List Bytes)
    (d : Bytes) (o1 o2 o3 : Bool) :
    (runExecution enabled events pending d o1 o2 o3).state
      = (finalize (runLoop (initState enabled) events).1 pending d o1 o2 o3).state := rfl

theorem runExecution_calls (enabled : Bool) (events : List Event) (pending : List Bytes)
    (d : Bytes) (o1 o2 o3 : Bool) :
    (runExecution enabled events pending d o1 o2 o3).calls
      = (runLoop (initState enabled) events).2
          ++ (finalize (runLoop (initState enabled) events).1 pending d o1 o2 o3).calls :=
  rfl

theorem runExecution_finalOutput (enabled : Bool) (events : List Event)
    (pending : List Bytes) (d : Bytes) (o1 o2 o3 : Bool) :
    (runExecution enabled events pending d o1 o2 o3).finalOutput
      = (finalize (runLoop (initState enabled) events).1 pending d o1 o2 o3).finalOutput :=
  rfl

theorem liveCalls_nil_of_nonlive (xs : List SinkCall)
    (h : ∀ c ∈ xs, c.isLive = false) : liveCalls xs = [] := by
  induction xs with
  | nil => rfl
  | cons c cs ih =>
    have hc := h c (List.mem_cons_self c cs)
    simp only [liveCalls, List.filter_cons, hc]
    exact ih fun e he => h e (List.mem_cons_of_mem _ he)

/-- C1: for every command execution (with the child process started) and every
pattern of sink-call failures, the full output with the completion report
reaches the user via exactly one of the completed live session and the
fallback thread reply: when the live session completes, no fallback reply is
posted, the successful appends deliver exactly the final output, and exactly
one successful stop call is issued; otherwise exactly one fallback reply is
posted and it carries the full final output. -/
theorem exactly_once_delivery (enabled : Bool) (events : List Event)
    (pending : List Bytes) (d : Bytes) (o1 o2 o3 : Bool) :
    (liveCompleted (runExecution enabled events pending d o1 o2 o3) = true →
      postReplyTexts (runExecution enabled events pending d o1 o2 o3).calls = [] ∧
      (successfulAppendTexts
          (runExecution enabled events pending d o1 o2 o3).calls).flatten
        = (runExecution enabled events pending d o1 o2 o3).finalOutput ∧
      ((runExecution enabled events pending d o1 o2 o3).calls.filter
          fun c => c.isStop)
        = [SinkCall.stop true]) ∧
    (liveCompleted (runExecution enabled events pending d o1 o2 o3) = false →
      postReplyTexts (runExecution enabled events pending d o1 o2 o3).calls
        = [(runExecution enabled events pending d o1 o2 o3).finalOutput]) := by
  have hInv0 : LoopInv (initState enabled) := Nat.zero_le _
  have hInv := runLoop_inv events (initState enabled) hInv0
  constructor
  · intro h
    unfold liveCompleted at h
    rw [Bool.and_eq_true] at h
    obtain ⟨hen, hnf⟩ := h
    have hfail : (finalize (runLoop (initState enabled) events).1
        pending d o1 o2 o3).state.streamingFailed = false := by
      rw [runExecution_state] at hnf
      simpa using hnf
    have hF : (runLoop (initState enabled) events).1.streamingFailed = false :=
      finalize_failed_back _ pending d o1 o2 o3 hfail
    have hEn : (runLoop (initState enabled) events).1.streamingEnabled = true := by
      rw [runExecution_state, (finalize_basic _ pending d o1 o2 o3).2.2.2] at hen
      exact hen
    obtain ⟨p1, p2, p3⟩ := finalize_live _ pending d o1 o2 o3 hEn hF hfail
    have hA : (successfulAppendTexts (runLoop (initState enabled) events).2).flatten
        = (runLoop (initState enabled) events).1.buf.take
            (runLoop (initState enabled) events).1.lastSentLen := by
      rw [runLoop_sent events (initState enabled) hInv0]
      simp [initState]
    refine ⟨?_, ?_, ?_⟩
    · rw [runExecution_calls, postReplyTexts_append,
        postReplyTexts_of_appends _ (runLoop_append_only events (initState enabled)),
        p1]
      rfl
    · rw [runExecution_calls, successfulAppendTexts_append, List.flatten_append,
        hA, p2, runExecution_finalOutput, (finalize_basic _ pending d o1 o2 o3).2.1]
      calc (runLoop (initState enabled) events).1.buf.take
              (runLoop (initState enabled) events).1.lastSentLen
            ++ (((runLoop (initState enabled) events).1.buf ++ pending.flatten).drop
                  (runLoop (initState enabled) events).1.lastSentLen ++ d)
          = ((runLoop (initState enabled) events).1.buf ++ pending.flatten).take
              (runLoop (initState enabled) events).1.lastSentLen
            ++ (((runLoop (initState enabled) events).1.buf ++ pending.flatten).drop
                  (runLoop (initState enabled) events).1.lastSentLen ++ d) := by
            rw [List.take_append_of_le_length hInv]
        _ = (((runLoop (initState enabled) events).1.buf ++ pending.flatten).take
              (runLoop (initState enabled) events).1.lastSentLen
            ++ ((runLoop (initState enabled) events).1.buf ++ pending.flatten).drop
              (runLoop (initState enabled) events).1.lastSentLen) ++ d := by
            rw [List.append_assoc]
        _ = ((runLoop (initState enabled) events).1.buf ++ pending.flatten) ++ d := by
            rw [List.take_append_drop]
    · rw [runExecution_calls, List.filter_append,
        stops_of_appends _ (runLoop_append_only events (initState enabled)), p3]
      rfl
  · intro h
    unfold liveCompleted at h
    have hOr : (finalize (runLoop (initState enabled) events).1
          pending d o1 o2 o3).state.streamingFailed = true ∨
        (runLoop (initState enabled) events).1.streamingEnabled = false := by
      rcases Bool.and_eq_false_iff.mp h with h | h
      · right
        rw [runExecution_state, (finalize_basic _ pending d o1 o2 o3).2.2.2] at h
        exact h
      · left
        rw [runExecution_state] at h
        simpa using h
    rw [runExecution_calls, postReplyTexts_append,
      postReplyTexts_of_appends _ (runLoop_append_only events (initState enabled)),
      finalize_fallback_calls _ pending d o1 o2 o3 hOr,
      runExecution_finalOutput, (finalize_basic _ pending d o1 o2 o3).2.1]
    rfl

/-- C1 witness: in the start-failure scenario with no output, the execution is
not a completed live session, so exactly one fallback reply carrying the final
output is posted. -/
theorem exactly_once_delivery_witness :
    postReplyTexts (runExecution false [] [] oneSecond true true true).calls
      = [(runExecution false [] [] oneSecond true true true).finalOutput] :=
  (exactly_once_delivery false [] [] oneSecond true true true).2 (by decide)

/-- C2 amended: the final buffer content before delivery equals the fixed
four-character fence prelude, then the concatenation in arrival order of all
chunks read from the two streams (those dequeued during the loop followed by
those drained at completion), then the completion report appended last; during
the loop the buffer always equals the prelude plus the chunks dequeued so far. -/
theorem buffer_fence_concat_report (enabled : Bool) (events : List Event)
    (pending : List Bytes) (d : Bytes) (o1 o2 o3 : Bool) :
    (runExecution enabled events pending d o1 o2 o3).finalOutput
      = fencePrelude ++ ((chunksOf events).flatten ++ pending.flatten) ++ d ∧
    (runLoop (initState enabled) events).1.buf
      = fencePrelude ++ (chunksOf events).flatten := by
  have hbuf := runLoop_buf events (initState enabled)
  constructor
  · rw [runExecution_finalOutput, (finalize_basic _ pending d o1 o2 o3).2.1, hbuf]
    show (fencePrelude ++ (chunksOf events).flatten ++ pending.flatten) ++ d = _
    rw [List.append_assoc fencePrelude]
  · exact hbuf

/-- C3: throughout every execution the sent offset is at most the buffer
length; it never decreases across a further event; the successful flushes'
payloads concatenate exactly to the sent region of the buffer, so no byte of
the buffer is included in two different flushes; a single further event either
leaves the offset unchanged or issues one successful flush of exactly the
unsent suffix and advances the offset by exactly its length; and the
completion branch never moves the offset. -/
theorem offset_monotone_no_duplication (enabled : Bool) (events : List Event)
    (e : Event) (pending : List Bytes) (d : Bytes) (o1 o2 o3 : Bool) :
    (runLoop (initState enabled) events).1.lastSentLen
        ≤ (runLoop (initState enabled) events).1.buf.length ∧
    (runLoop (initState enabled) events).1.lastSentLen
        ≤ (runLoop (initState enabled) (events ++ [e])).1.lastSentLen ∧
    (successfulAppendTexts (runLoop (initState enabled) events).2).flatten
        = (runLoop (initState enabled) events).1.buf.take
            (runLoop (initState enabled) events).1.lastSentLen ∧
    ((stepEvent (runLoop (initState enabled) events).1 e).1.lastSentLen
        = (runLoop (initState enabled) events).1.lastSentLen ∨
      ∃ t, (stepEvent (runLoop (initState enabled) events).1 e).2
            = [SinkCall.append t true] ∧
        t = (runLoop (initState enabled) events).1.buf.drop
              (runLoop (initState enabled) events).1.lastSentLen ∧
        (stepEvent (runLoop (initState enabled) events).1 e).1.lastSentLen
            = (runLoop (initState enabled) events).1.lastSentLen + t.length) ∧
    (finalize (runLoop (initState enabled) events).1
        pending d o1 o2 o3).state.lastSentLen
      = (runLoop (initState enabled) events).1.lastSentLen := by
  have hInv0 : LoopInv (initState enabled) := Nat.zero_le _
  have hInv := runLoop_inv events (initState enabled) hInv0
  refine ⟨hInv, ?_, ?_, ?_, (finalize_basic _ pending d o1 o2 o3).2.2.1⟩
  · rw [runLoop_append_fst]
    exact stepEvent_lastSent_mono _ e hInv
  · rw [runLoop_sent events (initState enabled) hInv0]
    simp [initState]
  · cases e with
    | chunk data => exact Or.inl rfl
    | tick ok =>
      rcases stepTick_char (runLoop (initState enabled) events).1 ok with
        hc | ⟨_, _, hlt, ⟨hok, hc⟩ | ⟨hok, hc⟩⟩
      · left
        show (stepTick (runLoop (initState enabled) events).1 ok).1.lastSentLen = _
        rw [hc]
      · right
        refine ⟨(runLoop (initState enabled) events).1.buf.drop
          (runLoop (initState enabled) events).1.lastSentLen, ?_, rfl, ?_⟩
        · show (stepTick (runLoop (initState enabled) events).1 ok).2 = _
          rw [hc]
        · show (stepTick (runLoop (initState enabled) events).1 ok).1.lastSentLen = _
          rw [hc]
          simp only [List.length_drop]
          omega
      · left
        show (stepTick (runLoop (initState enabled) events).1 ok).1.lastSentLen = _
        rw [hc]

/-- C4: once the execution has degraded — by the first failed append or stop,
or by a failed session start — no further append or stop call is issued: the
whole call log has no live call after a failed one, and with streaming never
enabled no live call is issued at all. -/
theorem degrade_one_way (enabled : Bool) (events : List Event) (pending : List Bytes)
    (d : Bytes) (o1 o2 o3 : Bool) :
    noLiveAfterFailedLive (runExecution enabled events pending d o1 o2 o3).calls
        = true ∧
    (enabled = false →
      liveCalls (runExecution enabled events pending d o1 o2 o3).calls = []) := by
  constructor
  · rw [runExecution_calls]
    cases hf : (runLoop (initState enabled) events).1.streamingFailed with
    | false =>
      exact nlafl_append_of_clean _ _
        (runLoop_nofail_calls events (initState enabled) hf)
        (finalize_nlafl _ pending d o1 o2 o3)
    | true =>
      exact nlafl_append_of_nonlive _ _
        (runLoop_nlafl events (initState enabled))
        (finalize_degraded_nonlive _ pending d o1 o2 o3 (Or.inr hf))
  · intro hE
    have hE' : (runLoop (initState enabled) events).1.streamingEnabled = false := by
      rw [runLoop_enabled]
      exact hE
    rw [runExecution_calls, liveCalls_append,
      runLoop_disabled events (initState enabled) hE,
      liveCalls_nil_of_nonlive _
        (finalize_degraded_nonlive _ pending d o1 o2 o3 (Or.inl hE'))]
    rfl

/-- C4 witness: with a failed session start, a chunk arrival and a completion,
no live-session call is issued in the whole execution. -/
theorem degrade_one_way_witness :
    liveCalls (runExecution false [Event.chunk oneSecond] [] oneSecond
      true true true).calls = [] :=
  (degrade_one_way false [Event.chunk oneSecond] [] oneSecond true true true).2 rfl

/-- C5: on each timer tick at most one append call is issued, every append
issued at a tick carries a nonempty delta, and a tick at which there is no
unsent data issues no call and leaves the state unchanged — it counts neither
as flush success nor as flush failure. -/
theorem flush_cadence (s : LoopState) (ok : Bool) :
    (stepTick s ok).2.length ≤ 1 ∧
    (∀ c ∈ (stepTick s ok).2, ∃ t okr, c = SinkCall.append t okr ∧ t ≠ []) ∧
    (s.buf.length = s.lastSentLen → stepTick s ok = (s, [])) := by
  rcases stepTick_char s ok with hc | ⟨_, _, hlt, ⟨hok, hc⟩ | ⟨hok, hc⟩⟩
  · rw [hc]
    exact ⟨by simp, by simp, fun _ => rfl⟩
  · rw [hc]
    refine ⟨by simp, ?_, fun heq => absurd hlt (by omega)⟩
    intro c hcm
    rcases List.mem_singleton.mp hcm with rfl
    refine ⟨s.buf.drop s.lastSentLen, true, rfl, ?_⟩
    exact List.ne_nil_of_length_pos (by rw [List.length_drop]; omega)
  · rw [hc]
    refine ⟨by simp, ?_, fun heq => absurd hlt (by omega)⟩
    intro c hcm
    rcases List.mem_singleton.mp hcm with rfl
    refine ⟨s.buf.drop s.lastSentLen, false, rfl, ?_⟩
    exact List.ne_nil_of_length_pos (by rw [List.length_drop]; omega)

/-- C5 witness: a tick at a state whose buffer is fully sent issues no call
and leaves the state unchanged. -/
theorem flush_cadence_witness :
    stepTick ⟨['a'], 1, true, false⟩ true = (⟨['a'], 1, true, false⟩, []) :=
  (flush_cadence ⟨['a'], 1, true, false⟩ true).2.2 (by decide)

/-- C7: the completion branch incorporates every chunk still sitting in the
delivery queue into the buffer before the completion report is appended: the
final state's buffer is the loop buffer followed by all drained chunks in
order, and the final output is exactly that drained buffer followed by the
report. -/
theorem drain_before_report (s : LoopState) (pending : List Bytes) (d : Bytes)
    (o1 o2 o3 : Bool) :
    (finalize s pending d o1 o2 o3).state.buf = s.buf ++ pending.flatten ∧
    (finalize s pending d o1 o2 o3).finalOutput = (s.buf ++ pending.flatten) ++ d :=
  ⟨(finalize_basic s pending d o1 o2 o3).1, (finalize_basic s pending d o1 o2 o3).2.1⟩

/-- C8: for every input text, the executed command equals the input with
exactly one leading dollar marker removed when present, then trimmed of
leading and trailing whitespace; in particular a doubled-marker input yields a
command that still begins with a dollar sign. -/
theorem command_strip_trim :
    (∀ text : Bytes, parseCommand text = specCommandOf text) ∧
    parseCommand dollarDollarCmd = dollarCmd ∧
    (parseCommand dollarDollarCmd).head? = some '$' := by
  refine ⟨fun text => ?_, by decide, by decide⟩
  cases text with
  | nil => rfl
  | cons a rest =>
    by_cases h : a = '$'
    · subst h
      simp [parseCommand, specCommandOf, trimOneDollar]
    · simp [parseCommand, specCommandOf, trimOneDollar, h]

/-- C9: after the live session was started, a pipe-creation failure issues
only a stop-session call — no append and no fallback reply — and returns, so
no output or completion message reaches the user for that command. -/
theorem pipe_failure_stop_only (okStop : Bool) :
    handlePipeFailure true okStop = [SinkCall.stop okStop] ∧
    (handlePipeFailure true okStop).filter (fun c => c.isAppend) = [] ∧
    postReplyTexts (handlePipeFailure true okStop) = [] := by
  cases okStop <;> exact ⟨rfl, rfl, rfl⟩

/-- C10: the extracted exit code is 0 when the wait returns no error or an
error that is not an `exec.ExitError`, and the carried `ExitCode()` otherwise;
in particular a signal-killed process is reported with the single code -1. -/
theorem exit_code_extraction :
    extractExitCode WaitError.none = 0 ∧
    extractExitCode WaitError.otherError = 0 ∧
    (∀ c : Int, extractExitCode (WaitError.exitError c) = c) ∧
    (∀ sig : Nat, extractExitCode (waitResult (Termination.signaled sig)) = -1) :=
  ⟨rfl, rfl, fun _ => rfl, fun _ => rfl⟩

/-- C6 counterexample: on a spawn failure with streaming unavailable, the one
message issued is the bare error text, which contains no exit-status report
(the exit-code marker of the completion report does not occur in it) — so the
exit status is not reported as failed, refuting that part of the claim. -/
theorem spawn_failure_no_exit_status :
    handleStartFailure false sampleSpawnError true true
      = [SinkCall.postReply (startErrorMsg sampleSpawnError)] ∧
    hasInfixSeq exitCodeMarker (startErrorMsg sampleSpawnError) = false := by
  exact ⟨rfl, by decide⟩

/-- C6 amended: a spawn failure terminates the execution with the failure
reported as a single error message — appended to the live session which is
then stopped when streaming is enabled, posted as a single thread reply
otherwise — with no exit status or completion report included (the call log
is exactly these calls), and no further streaming is attempted afterwards. -/
theorem spawn_failure_reporting (errText : Bytes) (okAppend okStop : Bool) :
    handleStartFailure true errText okAppend okStop
      = [SinkCall.append (startErrorMsg errText) okAppend, SinkCall.stop okStop] ∧
    handleStartFailure false errText okAppend okStop
      = [SinkCall.postReply (startErrorMsg errText)] ∧
    postReplyTexts (handleStartFailure true errText okAppend okStop) = [] ∧
    liveCalls (handleStartFailure false errText okAppend okStop) = [] := by
  cases okAppend <;> cases okStop <;> exact ⟨rfl, rfl, rfl, rfl⟩

/-- C2 counterexample: with no output chunks at all and every sink call
succeeding, the final buffer content is the fence prelude followed by the
completion report — not the bare concatenation of the (empty) chunk sequence
followed by the report, refuting that nothing else is added. -/
theorem buffer_exact_concat_refuted :
    (runExecution true [] [] (debugInfoText 0 oneSecond) true true true).finalOutput
      ≠ ([] : List Bytes).flatten ++ debugInfoText 0 oneSecond := by decide

end HttpShell
